import Mathlib

/-!
Shallow embedding of the core of the COS-ECE470-fa2024 blockchain node
(blockchain ledger, state transition, mempool, network worker block pipeline,
Merkle tree), translated from the Rust sources:

  src/src/blockchain/mod.rs       (Blockchain)
  src/src/types/state.rs          (State, AccountState, process_transaction)
  src/src/types/transaction.rs    (Transaction, SignedTransaction, verify)
  src/src/types/mempool.rs        (Mempool)
  src/src/network/worker.rs       (Worker: Blocks arm, process_orphans)
  src/.../src/types/merkle.rs     (MerkleTree, verify)
  src/ib5506/.../src/types/block.rs (Header, Content, Block, compute_merkle_root)

Modelling conventions.
* 32-byte digests (`H256`) and 20-byte addresses are modelled as `Nat`; the
  big-endian byte-lexicographic order of `H256` is exactly the numeric order.
* `HashMap` is modelled as an association list with first-match lookup;
  `insert` conses (so lookup sees the latest binding, matching overwrite
  semantics) and `remove` filters out all bindings of the key.
* The cryptographic primitives (SHA-256, Ed25519) are external collaborators
  of the repository; they are modelled as injective encodings, which is the
  standard idealization of collision resistance / signature unforgeability.
  The block hash (SHA-256 of the bincode-serialized header) is modelled as an
  injective encoding of the header fields that determine chain structure
  (parent, nonce, timestamp, merkle_root); the difficulty field is left out of
  the encoding so that, as with real SHA-256, headers meeting any difficulty
  target exist in the model.  The encoding is `≥ 1`, so a block hash is never
  the all-zero digest (genesis parent), and it is strictly greater than the
  encoded parent, so a block is never its own ancestor — both facts hold for
  SHA-256 up to negligible probability and the code relies on them.
* Machine integers (`u32` nonces, `u64` balances, `u128` timestamps) are
  modelled as `Nat`; the subtraction in `process_transaction` is guarded by
  the balance check, so truncated `Nat` subtraction agrees with `u64`.
-/

set_option maxRecDepth 4000

namespace Node

/-! ### Association-list model of `std::collections::HashMap` -/

def Map (α : Type) : Type := List (Nat × α)

namespace Map

def empty {α : Type} : Map α := []

def find? {α : Type} (m : Map α) (k : Nat) : Option α :=
  match m with
  | [] => none
  | (k2, v) :: rest => if k2 = k then some v else find? rest k

/-- Embeds `HashMap::insert` (overwrite semantics via first-match lookup). -/
def insert {α : Type} (m : Map α) (k : Nat) (v : α) : Map α := (k, v) :: m

/-- Embeds `HashMap::contains_key`. -/
def contains {α : Type} (m : Map α) (k : Nat) : Bool := (m.find? k).isSome

/-- Embeds `HashMap::remove` (drops every binding of the key). -/
def erase {α : Type} (m : Map α) (k : Nat) : Map α :=
  m.filter (fun p => decide (p.1 ≠ k))

def size {α : Type} (m : Map α) : Nat := m.length

instance {α : Type} [DecidableEq α] : DecidableEq (Map α) :=
  inferInstanceAs (DecidableEq (List (Nat × α)))

instance {α : Type} [Repr α] : Repr (Map α) :=
  inferInstanceAs (Repr (List (Nat × α)))

end Map

/-! ### Digests, addresses, cryptographic primitives (modelled) -/

/- `H256`, a 32-byte digest, is modelled as `Nat`; its total order is
big-endian lexicographic, i.e. the numeric order of the 256-bit value.
`Address`, a 20-byte account identifier, is likewise modelled as `Nat`. -/

/-- Embeds `H256::default()` / the all-zero digest. -/
def zeroH : Nat := 0

/-- Injective encoding of a pair, with `Nat.pair a b ≥ a` and `≥ b`. -/
def enc2 (a b : Nat) : Nat := Nat.pair a b

/-- Modelled from the spec: the repository's `Address` type and
`Address::from_public_key_bytes` (last 20 bytes of SHA-256 of the Ed25519
public-key bytes) are not present under `src/`; modelled as an injective
function on the (encoded) public-key bytes. -/
def addrOfPk (pk : Nat) : Nat := pk + 1

/-- Modelled from the spec: Ed25519 key generation from a 32-byte seed
(`Ed25519KeyPair::from_seed_unchecked`) is an external primitive; the public
key of the keypair derived from seed `[s; 32]` is modelled injectively. -/
def pkOfSeed (s : Nat) : Nat := enc2 1 s + 1

/-! ### Transactions -/

/-- Embeds `Transaction { receiver, value, nonce }` (src/src/types/transaction.rs). -/
structure Transaction where
  receiver : Nat
  value : Nat
  nonce : Nat
  deriving DecidableEq, Repr

/-- The bincode serialization of a `Transaction`, modelled injectively. -/
def encodeTx (t : Transaction) : Nat := enc2 t.receiver (enc2 t.value t.nonce)

/-- Embeds `SignedTransaction { transaction, signature, public_key }`; the byte
vectors are modelled as their encodings. -/
structure SignedTransaction where
  transaction : Transaction
  signature : Nat
  public_key : Nat
  deriving DecidableEq, Repr

/-- Modelled from the spec: Ed25519 signing is an external primitive; the
unique signature that verifies under public key `pk` over the serialized
transaction `t` (unforgeability idealization). -/
def sigOf (pk : Nat) (t : Transaction) : Nat := enc2 pk (encodeTx t) + 1

/-- Modelled from the spec: `UnparsedPublicKey::verify` over the
bincode-serialized inner transaction succeeds iff the signature is the one
produced with the key of `public_key`. -/
def sigValid (st : SignedTransaction) : Bool :=
  st.signature == sigOf st.public_key st.transaction

/-- SHA-256 of the bincode serialization of a `SignedTransaction`
(`impl Hashable for SignedTransaction`), modelled injectively; `≥ 1`. -/
def txHash (st : SignedTransaction) : Nat :=
  enc2 (encodeTx st.transaction) (enc2 st.signature st.public_key) + 1

/-! ### Account state (src/src/types/state.rs) -/

/-- Embeds `AccountState { nonce: u32, balance: u64 }`. -/
structure AccountState where
  nonce : Nat
  balance : Nat
  deriving DecidableEq, Repr

/-- Embeds `State { accounts: HashMap<Nat, AccountState> }`. -/
structure State where
  accounts : Map AccountState
  deriving DecidableEq, Repr

namespace State

/-- Embeds `State::new`. -/
def new : State := ⟨Map.empty⟩

/-- Embeds `State::create_account`. -/
def create_account (s : State) (address : Nat) (initial_balance : Nat) :
    State :=
  ⟨s.accounts.insert address ⟨0, initial_balance⟩⟩

/-- Embeds `State::get_account_state`. -/
def get_account_state (s : State) (address : Nat) : Option AccountState :=
  s.accounts.find? address

/-- Embeds `State::update_balance` (no-op when the account is absent). -/
def update_balance (s : State) (address : Nat) (new_balance : Nat) :
    State :=
  ⟨s.accounts.map (fun p =>
     if p.1 = address then (p.1, ⟨p.2.nonce, new_balance⟩) else p)⟩

/-- Embeds `State::increment_nonce` (no-op when the account is absent). -/
def increment_nonce (s : State) (address : Nat) : State :=
  ⟨s.accounts.map (fun p =>
     if p.1 = address then (p.1, ⟨p.2.nonce + 1, p.2.balance⟩) else p)⟩

end State

/-- Embeds `SignedTransaction::verify` (src/src/types/transaction.rs): Ed25519
signature over the serialized inner transaction, then sender-account
existence, nonce continuity (`tx.nonce == account.nonce + 1`) and balance
sufficiency against the given state. -/
def SignedTransaction.verify (st : SignedTransaction) (s : State) : Bool :=
  if !sigValid st then false
  else
    match s.get_account_state (addrOfPk st.public_key) with
    | some account =>
      if st.transaction.nonce ≠ account.nonce + 1 then false
      else if account.balance < st.transaction.value then false
      else true
    | none => false

/-- Embeds `State::process_transaction` (src/src/types/state.rs), with the `&mut
self` receiver made explicit: returns the `Result<(), String>` and the state
after the call.  The Rust function first looks the sender account up
(`ok_or("Sender account not found")`), then runs `tx.verify(&self)`
(returning `"Invalid signature"` on failure), and only then mutates. -/
def State.process_transaction (s : State) (tx : SignedTransaction) :
    Except String Unit × State :=
  let sender := addrOfPk tx.public_key
  match s.get_account_state sender with
  | none => (Except.error "Sender account not found", s)
  | some sender_account =>
    if !tx.verify s then (Except.error "Invalid signature", s)
    else
      let s1 := s.update_balance sender
        (sender_account.balance - tx.transaction.value)
      let s2 := s1.increment_nonce sender
      let receiver := tx.transaction.receiver
      let s3 :=
        match s2.get_account_state receiver with
        | some receiver_account =>
          s2.update_balance receiver
            (receiver_account.balance + tx.transaction.value)
        | none => s2.create_account receiver tx.transaction.value
      (Except.ok (), s3)

/-! ### Merkle tree (src/.../src/types/merkle.rs) -/

/-- SHA-256 of a single datum (`Hashable::hash` on the leaf items; in the
repository the items are `H256` values, hashed again), modelled injectively. -/
def hashLeaf (n : Nat) : Nat := enc2 n 0 + 1

/-- SHA-256 of the concatenation of a left and a right 32-byte digest
(internal Merkle node), modelled injectively. -/
def hashConcat (a b : Nat) : Nat := enc2 a b + 1

/-- The odd-length padding step: duplicate the last element before pairing. -/
def pad (l : List Nat) : List Nat :=
  if l.length % 2 ≠ 0 then l ++ [l.getLastD 0] else l

/-- Pair consecutive entries of an (even-length) level into parent hashes. -/
def pairUp : List Nat → List Nat
  | a :: b :: rest => hashConcat a b :: pairUp rest
  | _ => []

def nextLevel (l : List Nat) : List Nat := pairUp (pad l)

/-- The body of the `while current_level.len() > 1` loop of
`MerkleTree::new`, with explicit fuel bounding the iteration count.  Each
iteration at least halves the level length, so `cur.length` iterations always
suffice (`buildLevelsGo_stable` shows the fuel is immaterial beyond that). -/
def buildLevelsGo : Nat → List Nat → List (List Nat)
  | 0, cur => [cur]
  | fuel + 1, cur =>
    if cur.length > 1 then cur :: buildLevelsGo fuel (nextLevel cur)
    else [cur]

/-- The level list built by `MerkleTree::new` from the leaf level. -/
def buildLevels (cur : List Nat) : List (List Nat) :=
  buildLevelsGo cur.length cur

structure MerkleTree where
  levels : List (List Nat)
  deriving Repr

/-- Embeds `MerkleTree::new`: hash the data into leaves (an empty input contributes
the single default digest), then build levels bottom-up. -/
def MerkleTree.new (data : List Nat) : MerkleTree :=
  let leaves := data.map hashLeaf
  let cur := if leaves.isEmpty then [zeroH] else leaves
  ⟨buildLevels cur⟩

/-- Embeds `MerkleTree::root`: the single entry of the top level. -/
def MerkleTree.root (t : MerkleTree) : Nat := (t.levels.getLastD []).headD 0

/-- The sibling-collection loop of `MerkleTree::proof` over
`levels[..levels.len() - 1]`. -/
def proofAux : List (List Nat) → Nat → List Nat
  | [], _ => []
  | level :: rest, idx =>
    (if idx % 2 = 0 then
       if idx + 1 < level.length then level.getD (idx + 1) 0
       else level.getD idx 0
     else level.getD (idx - 1) 0) :: proofAux rest (idx / 2)

/-- Embeds `MerkleTree::proof`: an out-of-range index yields the empty proof. -/
def MerkleTree.proof (t : MerkleTree) (index : Nat) : List Nat :=
  if t.levels.isEmpty || decide (index ≥ (t.levels.headD []).length) then []
  else proofAux t.levels.dropLast index

/-- The folding loop of `verify`. -/
def verifyFold : Nat → Nat → List Nat → Nat
  | h, _, [] => h
  | h, idx, sib :: rest =>
    verifyFold (if idx % 2 = 0 then hashConcat h sib else hashConcat sib h)
      (idx / 2) rest

/-- Free function `verify` of merkle.rs. -/
def verify (root datum : Nat) (proof : List Nat) (index leaf_size : Nat) :
    Bool :=
  if index ≥ leaf_size then false
  else verifyFold datum index proof == root

/-! ### Blocks (src/ib5506/.../src/types/block.rs) -/

/-- Embeds `Header { parent, nonce: u32, difficulty, timestamp: u128, merkle_root }`. -/
structure Header where
  parent : Nat
  nonce : Nat
  difficulty : Nat
  timestamp : Nat
  merkle_root : Nat
  deriving DecidableEq, Repr

structure Content where
  data : List SignedTransaction
  deriving DecidableEq, Repr

structure Block where
  header : Header
  content : Content
  deriving DecidableEq, Repr

/-- SHA-256 of the bincode-serialized header (`impl Hashable for Header`).
Modelled as an injective encoding of the chain-structure fields (see the
header comment); always `≥ 1` and strictly greater than the parent digest. -/
def headerHash (h : Header) : Nat :=
  enc2 h.parent (enc2 h.nonce (enc2 h.timestamp h.merkle_root)) + 1

/-- Embeds `impl Hashable for Block`: only the header is hashed. -/
def Block.hash (b : Block) : Nat := headerHash b.header

def Block.get_parent (b : Block) : Nat := b.header.parent

/-- Embeds `compute_merkle_root`: Merkle root over the transaction hashes. -/
def compute_merkle_root (transactions : List SignedTransaction) : Nat :=
  (MerkleTree.new (transactions.map txHash)).root

/-! ### Blockchain (src/src/blockchain/mod.rs) -/

inductive BlockchainError where
  | BlockNotInserted
  | InvalidNonce
  | InsufficientBalance
  | InvalidTransaction
  | StateError
  deriving DecidableEq, Repr

/-- The fixed difficulty target
`0x00007fffffffffffffffffffffffffffffffffffffffffffffffffffffffffff`
(two zero bytes, then `7f`, then 29 `ff` bytes) as a natural number. -/
def DIFFICULTY : Nat := 2 ^ 239 - 1

/-- Embeds `Blockchain { blocks, states, chain_lengths, tip }`.  The `ico_keypair`
field is an external Ed25519 keypair derived from the fixed seed `[42u8; 32]`
(`generate_ico_keypair`); only its public key enters the model, via the
genesis state. -/
structure Blockchain where
  blocks : Map Block
  states : Map State
  chain_lengths : Map Nat
  tip : Nat
  deriving Repr

/-- The public key of the keypair derived from the fixed seed `[42u8; 32]`. -/
def icoPk : Nat := pkOfSeed 42

def icoAddress : Nat := addrOfPk icoPk

def genesisHeader : Header :=
  { parent := zeroH, nonce := 0, difficulty := DIFFICULTY, timestamp := 0,
    merkle_root := compute_merkle_root [] }

def genesisBlock : Block := { header := genesisHeader, content := ⟨[]⟩ }

def genesisHash : Nat := genesisBlock.hash

/-- The genesis state: one ICO account with balance 1,000,000. -/
def genesisState : State := State.new.create_account icoAddress 1000000

/-- Embeds `Blockchain::new`. -/
def Blockchain.new : Blockchain :=
  { blocks := Map.empty.insert genesisHash genesisBlock,
    states := Map.empty.insert genesisHash genesisState,
    chain_lengths := Map.empty.insert genesisHash 0,
    tip := genesisHash }

/-- The validation pass of `Blockchain::process_block_transactions`: apply
the transactions in order to a scratch copy, failing on the first transaction
that does not verify or does not process. -/
def applyTxsChecked : State → List SignedTransaction → Option State
  | st, [] => some st
  | st, tx :: rest =>
    if !tx.verify st then none
    else
      match st.process_transaction tx with
      | (Except.ok _, st2) => applyTxsChecked st2 rest
      | (Except.error _, _) => none

/-- Embeds `Blockchain::process_block_transactions`: if any transaction fails,
return the parent state unchanged; otherwise the state with all transactions
applied.  (The Rust runs the checked pass on a temporary clone and then
re-applies to `new_state`; both passes run the same deterministic steps from
the same state, so the embedding computes the single checked pass.) -/
def Blockchain.process_block_transactions (parent_state : State) (b : Block) :
    State :=
  match applyTxsChecked parent_state b.content.data with
  | some st => st
  | none => parent_state

/-- Embeds `Blockchain::insert`, with the `&mut self` receiver made explicit.  The
Rust indexes `chain_lengths[&parent_hash]` and `chain_lengths[&self.tip]`
directly (a panic if absent); modelled with default 0, the reachability
invariant showing the lookups always succeed. -/
def Blockchain.insert (bc : Blockchain) (b : Block) :
    Except BlockchainError Unit × Blockchain :=
  let block_hash := b.hash
  let parent_hash := b.get_parent
  match bc.states.find? parent_hash with
  | some parent_state =>
    let new_state := Blockchain.process_block_transactions parent_state b
    let blocks := bc.blocks.insert block_hash b
    let states := bc.states.insert block_hash new_state
    let new_length := (bc.chain_lengths.find? parent_hash).getD 0 + 1
    let chain_lengths := bc.chain_lengths.insert block_hash new_length
    let tip :=
      if new_length > (bc.chain_lengths.find? bc.tip).getD 0 then block_hash
      else bc.tip
    (Except.ok (), { blocks, states, chain_lengths, tip })
  | none => (Except.error BlockchainError.BlockNotInserted, bc)

/-- The height recorded for the current tip. -/
def Blockchain.tipHeight (bc : Blockchain) : Nat :=
  (bc.chain_lengths.find? bc.tip).getD 0

/-- The `while let Some(block) = self.blocks.get(&current_hash)` loop of
`all_blocks_in_longest_chain`, with explicit fuel; under the reachability
invariant the loop exits (at the genesis parent, the zero digest, which is
never a block hash) before the fuel runs out. -/
def chainBack (bc : Blockchain) : Nat → Nat → List Nat
  | 0, _ => []
  | fuel + 1, cur =>
    match bc.blocks.find? cur with
    | none => []
    | some blk => cur :: chainBack bc fuel blk.get_parent

/-- Embeds `Blockchain::all_blocks_in_longest_chain`. -/
def Blockchain.all_blocks_in_longest_chain (bc : Blockchain) : List Nat :=
  (chainBack bc (bc.blocks.size + 1) bc.tip).reverse

/-! ### Mempool (src/src/types/mempool.rs) -/

/-- Embeds `Mempool { transactions, max_block_size }`.  The `blockchain` field is a
shared `Arc<Mutex<Blockchain>>` handle; operations that lock it take the
blockchain as an explicit argument here. -/
structure Mempool where
  transactions : Map SignedTransaction
  max_block_size : Nat
  deriving Repr

/-- Embeds `Mempool::new`. -/
def Mempool.new : Mempool := ⟨Map.empty, 100⟩

/-- Embeds `Mempool::insert`: refuse a duplicate hash; otherwise validate the
transaction with `SignedTransaction::verify` against the tip state of the
shared blockchain, and store it only if valid, returning whether it was
stored. -/
def Mempool.insert (m : Mempool) (bc : Blockchain)
    (transaction : SignedTransaction) : Bool × Mempool :=
  let hash := txHash transaction
  if m.transactions.contains hash then (false, m)
  else
    let is_valid :=
      match bc.states.find? bc.tip with
      | some current_state => transaction.verify current_state
      | none => false
    if is_valid then
      (true, ⟨m.transactions.insert hash transaction, m.max_block_size⟩)
    else (false, m)

def Mempool.contains (m : Mempool) (h : Nat) : Bool :=
  m.transactions.contains h

def Mempool.get_transaction (m : Mempool) (h : Nat) :
    Option SignedTransaction :=
  m.transactions.find? h

/-- Embeds `Mempool::remove_transactions`. -/
def Mempool.remove_transactions (m : Mempool)
    (txs : List SignedTransaction) : Mempool :=
  ⟨txs.foldl (fun acc tx => acc.erase (txHash tx)) m.transactions,
   m.max_block_size⟩

/-! ### Network worker (src/src/network/worker.rs) -/

inductive Message where
  | Ping (nonce : String)
  | Pong (nonce : String)
  | NewBlockHashes (hashes : List Nat)
  | GetBlocks (hashes : List Nat)
  | Blocks (blocks : List Block)
  | NewTransactionHashes (hashes : List Nat)
  | GetTransactions (hashes : List Nat)
  | Transactions (transactions : List SignedTransaction)
  deriving DecidableEq, Repr

/-- The state a worker thread mutates: the two shared handles and its
orphan buffer. -/
structure WorkerState where
  blockchain : Blockchain
  mempool : Mempool
  orphan_buffer : Map (List Block)
  deriving Repr

/-- The result of handling one incoming block: the new worker state, the
messages written to the sending peer (`peer.write`), and the messages
broadcast to all peers (`server.broadcast`). -/
structure WorkerEffects where
  state : WorkerState
  peer_msgs : List Message
  broadcast_msgs : List Message
  deriving Repr

/-- The collection loop of `Worker::process_orphans`:
`while let Some(orphans) = self.orphan_buffer.remove(&current_hash)`,
appending the popped orphans and moving the cursor to the hash of the last
popped orphan.  Terminates because each iteration removes a present key. -/
def collectOrphansGo : Nat → Map (List Block) → Nat → List Block →
    Map (List Block) × List Block × Nat
  | 0, buf, cur, acc => (buf, acc, cur)
  | fuel + 1, buf, cur, acc =>
    match buf.find? cur with
    | none => (buf, acc, cur)
    | some orphans =>
      collectOrphansGo fuel (buf.erase cur)
        (match orphans.getLast? with
         | some ob => ob.hash
         | none => cur)
        (acc ++ orphans)

def collectOrphans (buf : Map (List Block)) (cur : Nat)
    (acc : List Block) : Map (List Block) × List Block × Nat :=
  collectOrphansGo buf.size buf cur acc

/-- The processing loop of `Worker::process_orphans` over the collected
blocks: PoW check against the block's own difficulty, insertion, mempool
eviction and broadcast on success, re-buffering under the final collection
cursor on failure. -/
def processCollected (curFinal : Nat) :
    Blockchain → Mempool → Map (List Block) → List Message → List Block →
    Blockchain × Mempool × Map (List Block) × List Message
  | bc, mp, buf, msgs, [] => (bc, mp, buf, msgs)
  | bc, mp, buf, msgs, block :: rest =>
    let block_hash := block.hash
    if block.hash > block.header.difficulty then
      processCollected curFinal bc mp buf msgs rest
    else
      match bc.insert block with
      | (Except.ok _, bc2) =>
        let mp2 := mp.remove_transactions block.content.data
        processCollected curFinal bc2 mp2 buf
          (msgs ++ [Message.NewBlockHashes [block_hash]]) rest
      | (Except.error _, bc2) =>
        let buf2 :=
          buf.insert curFinal ((buf.find? curFinal).getD [] ++ [block])
        processCollected curFinal bc2 mp buf2 msgs rest

/-- Embeds `Worker::process_orphans`. -/
def processOrphans (ws : WorkerState) (parent_hash : Nat) :
    WorkerState × List Message :=
  let r := collectOrphans ws.orphan_buffer parent_hash []
  let r2 := processCollected r.2.2 ws.blockchain ws.mempool r.1 [] r.2.1
  (⟨r2.1, r2.2.1, r2.2.2.1⟩, r2.2.2.2)

/-- One iteration of the `Message::Blocks` arm of `Worker::worker_loop` for a
single incoming block: duplicate drop, orphan buffering with a `GetBlocks`
request for the parent, PoW check against the block's own difficulty,
transaction validation against the parent state, insertion, mempool
eviction, `NewBlockHashes` broadcast, and orphan reconciliation. -/
def handleBlock (ws : WorkerState) (block : Block) : WorkerEffects :=
  let parent_hash := block.get_parent
  let block_hash := block.hash
  if ws.blockchain.blocks.contains block_hash then ⟨ws, [], []⟩
  else if !ws.blockchain.blocks.contains parent_hash then
    let buf := ws.orphan_buffer.insert parent_hash
      ((ws.orphan_buffer.find? parent_hash).getD [] ++ [block])
    ⟨⟨ws.blockchain, ws.mempool, buf⟩, [Message.GetBlocks [parent_hash]], []⟩
  else if block.hash > block.header.difficulty then ⟨ws, [], []⟩
  else
    let all_transactions_valid :=
      match ws.blockchain.states.find? parent_hash with
      | some parent_state =>
        block.content.data.all (fun tx => tx.verify parent_state)
      | none => false
    if !all_transactions_valid then ⟨ws, [], []⟩
    else
      match ws.blockchain.insert block with
      | (Except.ok _, bc2) =>
        let mp2 := ws.mempool.remove_transactions block.content.data
        let r := processOrphans ⟨bc2, mp2, ws.orphan_buffer⟩ block_hash
        ⟨r.1, [], Message.NewBlockHashes [block_hash] :: r.2⟩
      | (Except.error _, bc2) => ⟨⟨bc2, ws.mempool, ws.orphan_buffer⟩, [], []⟩

/-! ### Concrete example values -/

/-- A signed transaction with an invalid signature whose derived sender has
no account in the genesis state. -/
def txU : SignedTransaction :=
  { transaction := { receiver := 7, value := 5, nonce := 1 },
    signature := 0, public_key := 99 }

/-- A child of genesis carrying the single invalid transaction `txU`. -/
def blkBadTx : Block :=
  { header := { parent := genesisHash, nonce := 0, difficulty := DIFFICULTY,
                timestamp := 1, merkle_root := compute_merkle_root [txU] },
    content := ⟨[txU]⟩ }

/-- An empty child of genesis declaring difficulty 0, so that its hash
violates the proof-of-work bound. -/
def blkPoWFail : Block :=
  { header := { parent := genesisHash, nonce := 0, difficulty := 0,
                timestamp := 2, merkle_root := compute_merkle_root [] },
    content := ⟨[]⟩ }

def blkDiffHeaderBase : Header :=
  { parent := genesisHash, nonce := 0, difficulty := 0, timestamp := 1,
    merkle_root := compute_merkle_root [] }

/-- An empty child of genesis whose declared difficulty equals its own hash
(the block hash does not cover the difficulty field), so the proof-of-work
check passes while the difficulty differs from the parent's. -/
def blkDiff : Block :=
  { header := { blkDiffHeaderBase with
                difficulty := headerHash blkDiffHeaderBase },
    content := ⟨[]⟩ }

/-- A fresh worker: new blockchain, empty mempool, empty orphan buffer. -/
def ws0 : WorkerState := ⟨Blockchain.new, Mempool.new, Map.empty⟩

/-! ### Reachable blockchains and the chain invariant -/

/-- Blockchains reachable from `Blockchain::new` by any sequence of `insert`
calls (failed inserts return the blockchain unchanged). -/
inductive Reachable : Blockchain → Prop where
  | base : Reachable Blockchain.new
  | step (bc : Blockchain) (b : Block) (h : Reachable bc) :
      Reachable (bc.insert b).2

/-- The structural invariant maintained by `Blockchain::insert`: the three
maps share their key set, every stored block sits under its own hash, every
non-genesis stored block links to a stored parent with consecutive heights,
and recorded heights are bounded by the entry count. -/
structure WFChain (bc : Blockchain) : Prop where
  gen_block : bc.blocks.find? genesisHash = some genesisBlock
  gen_len : bc.chain_lengths.find? genesisHash = some 0
  tip_blocks : (bc.blocks.find? bc.tip).isSome
  dom_states : ∀ h, (bc.blocks.find? h).isSome ↔ (bc.states.find? h).isSome
  dom_lens : ∀ h,
    (bc.blocks.find? h).isSome ↔ (bc.chain_lengths.find? h).isSome
  hash_key : ∀ h blk, bc.blocks.find? h = some blk → blk.hash = h
  parent_link : ∀ h blk, bc.blocks.find? h = some blk → h ≠ genesisHash →
    ∃ m, bc.chain_lengths.find? blk.get_parent = some m ∧
      (bc.blocks.find? blk.get_parent).isSome ∧
      bc.chain_lengths.find? h = some (m + 1)
  len_bound : ∀ h n, bc.chain_lengths.find? h = some n → n < bc.blocks.size

/-- Every block present in `bc2` was already present in `bc` or satisfies
the proof-of-work bound against its own declared difficulty. -/
def newBlocksPoW (bc bc2 : Blockchain) : Prop :=
  ∀ h blk, bc2.blocks.find? h = some blk →
    bc.blocks.find? h = some blk ∨ blk.hash ≤ blk.header.difficulty

/-! ### General lemmas about the embedded maps, encodings and levels -/

namespace Map

theorem find?_insert {α : Type} (m : Map α) (k x : Nat) (v : α) :
    (m.insert k v).find? x = if k = x then some v else m.find? x := rfl

theorem find?_cons {α : Type} (k2 : Nat) (v : α) (rest : Map α) (x : Nat) :
    Map.find? ((k2, v) :: rest) x =
      if k2 = x then some v else rest.find? x := rfl

theorem erase_cons {α : Type} (k2 : Nat) (v : α) (rest : Map α) (k : Nat) :
    Map.erase ((k2, v) :: rest) k =
      if k2 = k then rest.erase k else (k2, v) :: rest.erase k := by
  by_cases h : k2 = k <;> simp [erase, List.filter_cons, h]

theorem find?_erase {α : Type} (m : Map α) (k x : Nat) :
    (m.erase k).find? x = if x = k then none else m.find? x := by
  induction m with
  | nil => simp [erase, find?]
  | cons p rest ih =>
    obtain ⟨k2, v⟩ := p
    rw [erase_cons]
    by_cases hpk : k2 = k
    · rw [if_pos hpk, ih, find?_cons]
      by_cases hx : x = k
      · simp [hx]
      · have hne : k2 ≠ x := by rw [hpk]; exact fun h => hx h.symm
        simp [hne, hx]
    · rw [if_neg hpk, find?_cons, find?_cons]
      by_cases hkx : k2 = x
      · have hx : ¬ x = k := by rw [← hkx]; exact hpk
        simp [hkx, hx]
      · rw [if_neg hkx, if_neg hkx, ih]

theorem length_erase_lt {α : Type} (m : Map α) (k : Nat) (v : α)
    (h : m.find? k = some v) : (m.erase k).length < m.length := by
  induction m with
  | nil => simp [find?] at h
  | cons p rest ih =>
    obtain ⟨k2, v2⟩ := p
    rw [erase_cons]
    by_cases hpk : k2 = k
    · rw [if_pos hpk]
      exact Nat.lt_succ_of_le (List.length_filter_le _ _)
    · rw [find?_cons, if_neg hpk] at h
      rw [if_neg hpk]
      simpa using Nat.succ_lt_succ (ih h)

end Map

theorem enc2_le_left (a b : Nat) : a ≤ enc2 a b := by
  unfold enc2 Nat.pair
  split
  · nlinarith [Nat.le_refl a]
  · nlinarith [Nat.le_refl a]

theorem enc2_le_right (a b : Nat) : b ≤ enc2 a b := by
  unfold enc2 Nat.pair
  split
  · nlinarith [Nat.le_refl b]
  · next h => omega

theorem enc2_inj {a b c d : Nat} (h : enc2 a b = enc2 c d) : a = c ∧ b = d := by
  have := congrArg Nat.unpair h
  simpa [enc2, Nat.unpair_pair, Prod.ext_iff] using this

theorem enc2_eq_zero {a b : Nat} (h : enc2 a b = 0) : a = 0 ∧ b = 0 := by
  constructor
  · exact Nat.le_zero.mp (h ▸ enc2_le_left a b)
  · exact Nat.le_zero.mp (h ▸ enc2_le_right a b)

theorem pairUp_length : (l : List Nat) → (pairUp l).length = l.length / 2
  | [] => rfl
  | [_] => by simp [pairUp]
  | _ :: _ :: rest => by
    have ih := pairUp_length rest
    simp [pairUp, ih]
    omega

theorem pad_length (l : List Nat) :
    (pad l).length = l.length + l.length % 2 := by
  unfold pad
  split <;> simp <;> omega

theorem nextLevel_length (l : List Nat) :
    (nextLevel l).length = (l.length + l.length % 2) / 2 := by
  rw [nextLevel, pairUp_length, pad_length]

theorem nextLevel_length_le (cur : List Nat) (h : 2 ≤ cur.length) :
    (nextLevel cur).length ≤ cur.length - 1 := by
  rw [nextLevel_length]
  omega

theorem buildLevelsGo_stable :
    ∀ f1 f2 (cur : List Nat), cur.length ≤ f1 → cur.length ≤ f2 →
      buildLevelsGo f1 cur = buildLevelsGo f2 cur
  | 0, f2, cur, h1, _ => by
    have hc : cur = [] := List.length_eq_zero.mp (Nat.le_zero.mp h1)
    subst hc
    cases f2 with
    | zero => rfl
    | succ f2 => simp [buildLevelsGo]
  | f1 + 1, 0, cur, _, h2 => by
    have hc : cur = [] := List.length_eq_zero.mp (Nat.le_zero.mp h2)
    subst hc
    simp [buildLevelsGo]
  | f1 + 1, f2 + 1, cur, h1, h2 => by
    by_cases hlen : cur.length > 1
    · have hnext := nextLevel_length_le cur hlen
      have ih := buildLevelsGo_stable f1 f2 (nextLevel cur)
        (by omega) (by omega)
      simp [buildLevelsGo, hlen, ih]
    · simp [buildLevelsGo, hlen]

/-- The loop-unfolding law of `buildLevels`. -/
theorem buildLevels_unfold (cur : List Nat) (h : 1 < cur.length) :
    buildLevels cur = cur :: buildLevels (nextLevel cur) := by
  unfold buildLevels
  have h2 : cur.length = (cur.length - 1) + 1 := by omega
  rw [h2]
  simp only [buildLevelsGo, h, if_pos]
  have hnext := nextLevel_length_le cur h
  rw [buildLevelsGo_stable (cur.length - 1) (nextLevel cur).length
    (nextLevel cur) (by omega) (by omega)]

/-- The terminal case of `buildLevels`. -/
theorem buildLevels_last (cur : List Nat) (h : cur.length ≤ 1) :
    buildLevels cur = [cur] := by
  unfold buildLevels
  cases hl : cur.length with
  | zero => rfl
  | succ n =>
    simp only [buildLevelsGo]
    rw [if_neg (by omega)]

theorem headerHash_pos (h : Header) : 1 ≤ headerHash h :=
  Nat.succ_le_succ (Nat.zero_le _)

theorem headerHash_gt_parent (h : Header) : h.parent < headerHash h :=
  Nat.lt_succ_of_le (enc2_le_left _ _)

theorem headerHash_inj (h1 h2 : Header) (he : headerHash h1 = headerHash h2) :
    h1.parent = h2.parent ∧ h1.nonce = h2.nonce ∧
    h1.timestamp = h2.timestamp ∧ h1.merkle_root = h2.merkle_root := by
  have h0 : enc2 h1.parent (enc2 h1.nonce (enc2 h1.timestamp h1.merkle_root)) =
      enc2 h2.parent (enc2 h2.nonce (enc2 h2.timestamp h2.merkle_root)) := by
    have h3 : enc2 h1.parent (enc2 h1.nonce (enc2 h1.timestamp h1.merkle_root))
        + 1 =
        enc2 h2.parent (enc2 h2.nonce (enc2 h2.timestamp h2.merkle_root))
        + 1 := he
    omega
  obtain ⟨hp, h1'⟩ := enc2_inj h0
  obtain ⟨hn, h2'⟩ := enc2_inj h1'
  obtain ⟨ht, hm⟩ := enc2_inj h2'
  exact ⟨hp, hn, ht, hm⟩

theorem collectOrphansGo_stable :
    ∀ f1 f2 (buf : Map (List Block)) (cur : Nat) (acc : List Block),
      buf.size ≤ f1 → buf.size ≤ f2 →
      collectOrphansGo f1 buf cur acc = collectOrphansGo f2 buf cur acc
  | 0, f2, buf, cur, acc, h1, _ => by
    have hb : buf = [] := List.length_eq_zero.mp (Nat.le_zero.mp h1)
    subst hb
    cases f2 with
    | zero => rfl
    | succ f2 => rfl
  | f1 + 1, 0, buf, cur, acc, _, h2 => by
    have hb : buf = [] := List.length_eq_zero.mp (Nat.le_zero.mp h2)
    subst hb
    rfl
  | f1 + 1, f2 + 1, buf, cur, acc, h1, h2 => by
    simp only [collectOrphansGo]
    cases hfind : buf.find? cur with
    | none => rfl
    | some orphans =>
      have hlt := Map.length_erase_lt buf cur orphans hfind
      have hs1 : (buf.erase cur).size ≤ f1 := by
        have := Nat.lt_of_lt_of_le hlt h1
        exact Nat.le_of_lt_succ this
      have hs2 : (buf.erase cur).size ≤ f2 := by
        have := Nat.lt_of_lt_of_le hlt h2
        exact Nat.le_of_lt_succ this
      exact collectOrphansGo_stable f1 f2 (buf.erase cur) _ _ hs1 hs2

theorem insert_ok_eq (bc : Blockchain) (b : Block) (ps : State)
    (hp : bc.states.find? b.get_parent = some ps) :
    bc.insert b =
      (Except.ok (),
       { blocks := bc.blocks.insert b.hash b,
         states := bc.states.insert b.hash
           (Blockchain.process_block_transactions ps b),
         chain_lengths := bc.chain_lengths.insert b.hash
           ((bc.chain_lengths.find? b.get_parent).getD 0 + 1),
         tip := if (bc.chain_lengths.find? b.get_parent).getD 0 + 1 >
                  (bc.chain_lengths.find? bc.tip).getD 0
                then b.hash else bc.tip }) := by
  simp only [Blockchain.insert, hp]

theorem insert_err_eq (bc : Blockchain) (b : Block)
    (hp : bc.states.find? b.get_parent = none) :
    bc.insert b = (Except.error BlockchainError.BlockNotInserted, bc) := by
  simp only [Blockchain.insert, hp]

/-- No stored block can sit under the zero digest: every block hash is
positive. -/
theorem zero_not_block (bc : Blockchain) (hwf : WFChain bc) :
    bc.blocks.find? zeroH = none := by
  cases hf : bc.blocks.find? zeroH with
  | none => rfl
  | some blk =>
    have hk := hwf.hash_key _ blk hf
    have hpos := headerHash_pos blk.header
    have hk2 : headerHash blk.header = 0 := hk
    exact absurd hk2 (by omega)

/-- A block whose parent has a recorded post-state cannot hash to the
genesis hash: that would force its parent to be the zero digest, which is
never a stored key. -/
theorem insertable_ne_genesis (bc : Blockchain) (b : Block) (ps : State)
    (hwf : WFChain bc) (hp : bc.states.find? b.get_parent = some ps) :
    b.hash ≠ genesisHash := by
  intro he
  have hinj := headerHash_inj b.header genesisHeader he
  have hpar : b.get_parent = zeroH := by
    unfold Block.get_parent
    rw [hinj.1]
    rfl
  rw [hpar] at hp
  have hbz : (bc.blocks.find? zeroH).isSome := by
    rw [hwf.dom_states]
    rw [hp]
    rfl
  rw [zero_not_block bc hwf] at hbz
  exact Bool.noConfusion hbz

/-- Re-insertion consistency: a block already stored under `b.hash` has the
same parent as `b`, and its recorded height is exactly the parent's height
plus one. -/
theorem lens_reinsert (bc : Blockchain) (b hb : Block) (hwf : WFChain bc)
    (hfind : bc.blocks.find? b.hash = some hb) (hne : b.hash ≠ genesisHash) :
    ∃ m, bc.chain_lengths.find? b.get_parent = some m ∧
      bc.chain_lengths.find? b.hash = some (m + 1) := by
  obtain ⟨m, hm1, _, hm3⟩ := hwf.parent_link _ hb hfind hne
  have hk := hwf.hash_key _ hb hfind
  have hpar : hb.get_parent = b.get_parent := by
    unfold Block.get_parent
    exact (headerHash_inj hb.header b.header hk).1
  rw [hpar] at hm1
  exact ⟨m, hm1, hm3⟩

theorem wf_new : WFChain Blockchain.new := by
  refine ⟨rfl, rfl, rfl, ?_, ?_, ?_, ?_, ?_⟩
  · intro h
    by_cases hg : genesisHash = h <;>
      simp [Blockchain.new, Map.find?_insert, hg, Map.empty, Map.find?]
  · intro h
    by_cases hg : genesisHash = h <;>
      simp [Blockchain.new, Map.find?_insert, hg, Map.empty, Map.find?]
  · intro h blk hfind
    by_cases hg : genesisHash = h
    · simp only [Blockchain.new, Map.find?_insert, if_pos hg] at hfind
      rw [Option.some.inj hfind.symm]
      exact hg
    · simp [Blockchain.new, Map.find?_insert, hg, Map.empty, Map.find?]
        at hfind
  · intro h blk hfind hne
    by_cases hg : genesisHash = h
    · exact absurd hg.symm hne
    · simp [Blockchain.new, Map.find?_insert, hg, Map.empty, Map.find?]
        at hfind
  · intro h n hfind
    by_cases hg : genesisHash = h
    · simp only [Blockchain.new, Map.find?_insert, if_pos hg] at hfind
      have : n = 0 := (Option.some.inj hfind).symm
      simp [this, Blockchain.new, Map.size, Map.insert, Map.empty]
    · simp [Blockchain.new, Map.find?_insert, hg, Map.empty, Map.find?]
        at hfind

theorem wf_insert (bc : Blockchain) (b : Block) (hwf : WFChain bc) :
    WFChain (bc.insert b).2 := by
  cases hp : bc.states.find? b.get_parent with
  | none =>
    rw [insert_err_eq bc b hp]
    exact hwf
  | some ps =>
    rw [insert_ok_eq bc b ps hp]
    have hne_gen : b.hash ≠ genesisHash := insertable_ne_genesis bc b ps hwf hp
    have hpblocks : (bc.blocks.find? b.get_parent).isSome := by
      rw [hwf.dom_states, hp]
      rfl
    obtain ⟨m, hm⟩ : ∃ m, bc.chain_lengths.find? b.get_parent = some m := by
      have h2 := (hwf.dom_lens _).mp hpblocks
      exact Option.isSome_iff_exists.mp h2
    have hpar_ne : b.get_parent ≠ b.hash := by
      have hgt := headerHash_gt_parent b.header
      have h1 : b.get_parent = b.header.parent := rfl
      have h2 : b.hash = headerHash b.header := rfl
      rw [h1, h2]
      omega
    refine ⟨?_, ?_, ?_, ?_, ?_, ?_, ?_, ?_⟩
    · rw [Map.find?_insert, if_neg hne_gen]
      exact hwf.gen_block
    · rw [Map.find?_insert, if_neg hne_gen]
      exact hwf.gen_len
    · by_cases hcond : (bc.chain_lengths.find? b.get_parent).getD 0 + 1 >
        (bc.chain_lengths.find? bc.tip).getD 0
      · simp only [if_pos hcond, Map.find?_insert, if_pos rfl]
        rfl
      · simp only [if_neg hcond, Map.find?_insert]
        by_cases ht : b.hash = bc.tip
        · rw [if_pos ht]
          rfl
        · rw [if_neg ht]
          exact hwf.tip_blocks
    · intro h
      rw [Map.find?_insert, Map.find?_insert]
      by_cases hh : b.hash = h
      · simp [hh]
      · simp only [if_neg hh]
        exact hwf.dom_states h
    · intro h
      rw [Map.find?_insert, Map.find?_insert]
      by_cases hh : b.hash = h
      · simp [hh]
      · simp only [if_neg hh]
        exact hwf.dom_lens h
    · intro h blk hfind
      rw [Map.find?_insert] at hfind
      by_cases hh : b.hash = h
      · rw [if_pos hh] at hfind
        rw [← Option.some.inj hfind]
        exact hh
      · rw [if_neg hh] at hfind
        exact hwf.hash_key h blk hfind
    · intro h blk hfind hne
      rw [Map.find?_insert] at hfind
      by_cases hh : b.hash = h
      · rw [if_pos hh] at hfind
        have hblk : blk = b := (Option.some.inj hfind).symm
        rw [hblk]
        refine ⟨m, ?_, ?_, ?_⟩
        · rw [Map.find?_insert, if_neg (fun he => hpar_ne he.symm)]
          exact hm
        · rw [Map.find?_insert]
          by_cases hph : b.hash = b.get_parent
          · simp [hph]
          · rw [if_neg hph]
            exact hpblocks
        · rw [Map.find?_insert, if_pos hh, hm]
          rfl
      · rw [if_neg hh] at hfind
        obtain ⟨mx, hmx1, hmx2, hmx3⟩ := hwf.parent_link h blk hfind hne
        by_cases hph : b.hash = blk.get_parent
        · -- the parent entry is being overwritten: re-insertion consistency
          -- shows the recorded height is unchanged
          obtain ⟨pb, hpb⟩ := Option.isSome_iff_exists.mp hmx2
          rw [← hph] at hpb
          obtain ⟨m2, hm21, hm22⟩ := lens_reinsert bc b pb hwf hpb hne_gen
          have hmeq : mx = m + 1 := by
            rw [← hph] at hmx1
            rw [hm22] at hmx1
            have hm2m : m2 = m := by
              rw [hm21] at hm
              exact Option.some.inj hm
            rw [hm2m] at hmx1
            exact (Option.some.inj hmx1).symm
          refine ⟨mx, ?_, ?_, ?_⟩
          · rw [Map.find?_insert, if_pos hph, hmeq, hm]
            rfl
          · rw [Map.find?_insert, if_pos hph]
            rfl
          · rw [Map.find?_insert, if_neg hh]
            exact hmx3
        · refine ⟨mx, ?_, ?_, ?_⟩
          · rw [Map.find?_insert, if_neg hph]
            exact hmx1
          · rw [Map.find?_insert]
            by_cases hq : b.hash = blk.get_parent
            · simp [hq]
            · rw [if_neg hq]
              exact hmx2
          · rw [Map.find?_insert, if_neg hh]
            exact hmx3
    · intro h n hfind
      have hsize : (bc.blocks.insert b.hash b).size = bc.blocks.size + 1 :=
        rfl
      rw [hsize]
      rw [Map.find?_insert] at hfind
      by_cases hh : b.hash = h
      · rw [if_pos hh] at hfind
        have hn : n = (bc.chain_lengths.find? b.get_parent).getD 0 + 1 :=
          (Option.some.inj hfind).symm
        have hmb := hwf.len_bound _ m hm
        rw [hn, hm]
        simp only [Option.getD_some]
        omega
      · rw [if_neg hh] at hfind
        have := hwf.len_bound h n hfind
        omega

theorem reachable_wf (bc : Blockchain) (hr : Reachable bc) : WFChain bc := by
  induction hr with
  | base => exact wf_new
  | step bc b _ ih => exact wf_insert bc b ih

/-! ### Claim C6 — tip update rule and monotonicity -/

/-- C6: for every reachable blockchain, a successful `insert` sets `tip` to
the inserted block exactly when the new height strictly exceeds the current
tip's height (ties keep the first-seen tip), and across any insert the tip's
height never decreases. -/
theorem C6_theorem (bc : Blockchain) (hr : Reachable bc) (b : Block) :
    ((bc.insert b).1 = Except.ok () →
      (bc.insert b).2.tip =
        (if bc.tipHeight < (bc.chain_lengths.find? b.get_parent).getD 0 + 1
         then b.hash else bc.tip)) ∧
    bc.tipHeight ≤ (bc.insert b).2.tipHeight := by
  have hwf := reachable_wf bc hr
  cases hp : bc.states.find? b.get_parent with
  | none =>
    rw [insert_err_eq bc b hp]
    exact ⟨fun h => Except.noConfusion h, Nat.le_refl _⟩
  | some ps =>
    rw [insert_ok_eq bc b ps hp]
    constructor
    · intro _
      rfl
    · by_cases hcond : (bc.chain_lengths.find? b.get_parent).getD 0 + 1 >
        (bc.chain_lengths.find? bc.tip).getD 0
      · simp only [Blockchain.tipHeight, if_pos hcond, Map.find?_insert,
          if_pos rfl, Option.getD_some]
        exact Nat.le_of_lt hcond
      · simp only [Blockchain.tipHeight, if_neg hcond, Map.find?_insert]
        by_cases ht : b.hash = bc.tip
        · rw [if_pos ht]
          have hne_gen : b.hash ≠ genesisHash :=
            insertable_ne_genesis bc b ps hwf hp
          obtain ⟨tb, htb⟩ := Option.isSome_iff_exists.mp hwf.tip_blocks
          rw [← ht] at htb
          obtain ⟨m2, hm21, hm22⟩ := lens_reinsert bc b tb hwf htb hne_gen
          rw [← ht, hm22, hm21]
          simp
        · rw [if_neg ht]

/-- C6 witness: inserting the concrete empty child `blkPoWFail` of genesis
into the fresh blockchain moves the tip to the child. -/
theorem C6_witness :
    (Blockchain.new.insert blkPoWFail).2.tip = blkPoWFail.hash := by
  have h := (C6_theorem Blockchain.new Reachable.base blkPoWFail).1 (by rfl)
  rw [h]
  rfl

/-! ### Claim C7 — the longest-chain listing -/

theorem chainBack_none (bc : Blockchain) (fuel : Nat) (cur : Nat)
    (h : bc.blocks.find? cur = none) : chainBack bc fuel cur = [] := by
  cases fuel with
  | zero => rfl
  | succ fuel => simp [chainBack, h]

theorem getLast?_cons_of_ne_nil {α : Type} (a : α) (l : List α)
    (h : l ≠ []) : (a :: l).getLast? = l.getLast? := by
  cases l with
  | nil => exact absurd rfl h
  | cons b t => exact List.getLast?_cons_cons

/-- Under the chain invariant, the parent walk from a stored block of height
`n` visits exactly `n + 1` blocks and ends at genesis, for any fuel beyond
`n`. -/
theorem chainBack_spec (bc : Blockchain) (hwf : WFChain bc) :
    ∀ n h blk fuel, bc.chain_lengths.find? h = some n →
      bc.blocks.find? h = some blk → n + 1 ≤ fuel →
      (chainBack bc fuel h).length = n + 1 ∧
      (chainBack bc fuel h).head? = some h ∧
      (chainBack bc fuel h).getLast? = some genesisHash := by
  intro n
  induction n using Nat.strong_induction_on with
  | _ n ih =>
    intro h blk fuel hlen hblk hfuel
    obtain ⟨fuel', rfl⟩ : ∃ f, fuel = f + 1 := ⟨fuel - 1, by omega⟩
    have hunfold : chainBack bc (fuel' + 1) h =
        h :: chainBack bc fuel' blk.get_parent := by
      simp [chainBack, hblk]
    by_cases hgen : h = genesisHash
    · subst hgen
      have hn0 : n = 0 := by
        have hg := hwf.gen_len
        rw [hlen] at hg
        exact Option.some.inj hg
      subst hn0
      have hblk2 : blk = genesisBlock := by
        have hg := hwf.gen_block
        rw [hblk] at hg
        exact Option.some.inj hg
      have hpar : blk.get_parent = zeroH := by rw [hblk2]; rfl
      have hnil : chainBack bc fuel' blk.get_parent = [] := by
        rw [hpar]
        exact chainBack_none bc fuel' zeroH (zero_not_block bc hwf)
      rw [hunfold, hnil]
      exact ⟨rfl, rfl, rfl⟩
    · obtain ⟨m, hm1, hm2, hm3⟩ := hwf.parent_link h blk hblk hgen
      have hn : n = m + 1 := by
        rw [hlen] at hm3
        exact Option.some.inj hm3
      obtain ⟨pblk, hpblk⟩ := Option.isSome_iff_exists.mp hm2
      have ihp := ih m (by omega) blk.get_parent pblk fuel' hm1 hpblk
        (by omega)
      obtain ⟨hlen', hhead', hlast'⟩ := ihp
      have hne : chainBack bc fuel' blk.get_parent ≠ [] := by
        intro he
        rw [he] at hlen'
        simp at hlen'
      rw [hunfold]
      refine ⟨?_, rfl, ?_⟩
      · simp only [List.length_cons, hlen']
        omega
      · rw [getLast?_cons_of_ne_nil _ _ hne]
        exact hlast'

/-- C7: for every reachable blockchain, `all_blocks_in_longest_chain`
starts at the genesis hash, ends at the tip, and has length
`height(tip) + 1`. -/
theorem C7_theorem (bc : Blockchain) (hr : Reachable bc) :
    bc.all_blocks_in_longest_chain.head? = some genesisHash ∧
    bc.all_blocks_in_longest_chain.getLast? = some bc.tip ∧
    bc.all_blocks_in_longest_chain.length = bc.tipHeight + 1 := by
  have hwf := reachable_wf bc hr
  obtain ⟨tblk, htblk⟩ := Option.isSome_iff_exists.mp hwf.tip_blocks
  obtain ⟨nt, hnt⟩ :=
    Option.isSome_iff_exists.mp ((hwf.dom_lens bc.tip).mp hwf.tip_blocks)
  have hbound := hwf.len_bound bc.tip nt hnt
  obtain ⟨hl, hh, hg⟩ := chainBack_spec bc hwf nt bc.tip tblk
    (bc.blocks.size + 1) hnt htblk (by omega)
  unfold Blockchain.all_blocks_in_longest_chain
  refine ⟨?_, ?_, ?_⟩
  · rw [List.head?_reverse]
    exact hg
  · rw [List.getLast?_reverse]
    exact hh
  · rw [List.length_reverse, hl]
    simp [Blockchain.tipHeight, hnt]

/-- C7 witness: the theorem at the concrete blockchain obtained by inserting
`blkPoWFail` into the fresh chain, where the longest chain is
`[genesis, blkPoWFail]`. -/
theorem C7_witness :
    (Blockchain.new.insert blkPoWFail).2.all_blocks_in_longest_chain.head? =
      some genesisHash ∧
    (Blockchain.new.insert blkPoWFail).2.all_blocks_in_longest_chain.getLast?
      = some (Blockchain.new.insert blkPoWFail).2.tip ∧
    (Blockchain.new.insert blkPoWFail).2.all_blocks_in_longest_chain.length =
      (Blockchain.new.insert blkPoWFail).2.tipHeight + 1 :=
  C7_theorem (Blockchain.new.insert blkPoWFail).2
    (Reachable.step Blockchain.new blkPoWFail Reachable.base)

/-! ### Claim C1 — block validity on insert -/

/-- C1 counterexample: the transactions of `blkBadTx` fail stateful
validation against the parent's (genesis) post-state, yet
`Blockchain::insert` returns `Ok` and stores the block, contradicting the
claim that insertion is refused with an error. -/
theorem C1_counterexample :
    applyTxsChecked genesisState blkBadTx.content.data = none ∧
    (Blockchain.new.insert blkBadTx).1 = Except.ok () ∧
    (Blockchain.new.insert blkBadTx).2.blocks.find? blkBadTx.hash =
      some blkBadTx :=
  ⟨rfl, rfl, rfl⟩

/-- C1 (amended): when a block's transaction sequence fails stateful
validation against the parent's post-state, `Blockchain::insert` still
succeeds: it returns `Ok`, stores the block, and records the parent's
post-state unchanged as the block's post-state. -/
theorem C1_theorem (bc : Blockchain) (b : Block) (parent_state : State)
    (hp : bc.states.find? b.get_parent = some parent_state)
    (hfail : applyTxsChecked parent_state b.content.data = none) :
    (bc.insert b).1 = Except.ok () ∧
    (bc.insert b).2.blocks.find? b.hash = some b ∧
    (bc.insert b).2.states.find? b.hash = some parent_state := by
  have hpb : Blockchain.process_block_transactions parent_state b =
      parent_state := by
    simp only [Blockchain.process_block_transactions, hfail]
  simp [Blockchain.insert, hp, hpb, Map.find?_insert]

/-- C1 witness: the amended theorem at the concrete block `blkBadTx` over
the fresh blockchain. -/
theorem C1_witness :
    (Blockchain.new.insert blkBadTx).1 = Except.ok () ∧
    (Blockchain.new.insert blkBadTx).2.blocks.find? blkBadTx.hash =
      some blkBadTx ∧
    (Blockchain.new.insert blkBadTx).2.states.find? blkBadTx.hash =
      some genesisState :=
  C1_theorem Blockchain.new blkBadTx genesisState rfl rfl

/-! ### Worker-pipeline lemmas -/

theorem newBlocksPoW_refl (bc : Blockchain) : newBlocksPoW bc bc :=
  fun _ _ hf => Or.inl hf

theorem newBlocksPoW_trans {bc1 bc2 bc3 : Blockchain}
    (h12 : newBlocksPoW bc1 bc2) (h23 : newBlocksPoW bc2 bc3) :
    newBlocksPoW bc1 bc3 := by
  intro h blk hf
  cases h23 h blk hf with
  | inl hin => exact h12 h blk hin
  | inr hpow => exact Or.inr hpow

theorem insert_newBlocksPoW (bc : Blockchain) (b : Block)
    (hpow : b.hash ≤ b.header.difficulty) :
    newBlocksPoW bc (bc.insert b).2 := by
  cases hp : bc.states.find? b.get_parent with
  | none =>
    rw [insert_err_eq bc b hp]
    exact newBlocksPoW_refl bc
  | some ps =>
    rw [insert_ok_eq bc b ps hp]
    intro h blk hf
    rw [Map.find?_insert] at hf
    by_cases hh : b.hash = h
    · rw [if_pos hh] at hf
      right
      rw [← Option.some.inj hf]
      exact hpow
    · rw [if_neg hh] at hf
      exact Or.inl hf

/-- A successful or failed `insert` never removes a block. -/
theorem insert_contains_mono (bc : Blockchain) (b : Block) (h : Nat)
    (hc : bc.blocks.contains h = true) :
    ((bc.insert b).2).blocks.contains h = true := by
  cases hp : bc.states.find? b.get_parent with
  | none =>
    rw [insert_err_eq bc b hp]
    exact hc
  | some ps =>
    rw [insert_ok_eq bc b ps hp]
    unfold Map.contains at hc ⊢
    rw [Map.find?_insert]
    by_cases hh : b.hash = h
    · rw [if_pos hh]
      rfl
    · rw [if_neg hh]
      exact hc

theorem processCollected_newBlocksPoW (curFinal : Nat) :
    ∀ (l : List Block) (bc : Blockchain) (mp : Mempool)
      (buf : Map (List Block)) (msgs : List Message),
      newBlocksPoW bc (processCollected curFinal bc mp buf msgs l).1
  | [], bc, mp, buf, msgs => newBlocksPoW_refl bc
  | block :: rest, bc, mp, buf, msgs => by
    simp only [processCollected]
    by_cases hpow : block.hash > block.header.difficulty
    · rw [if_pos hpow]
      exact processCollected_newBlocksPoW curFinal rest bc mp buf msgs
    · rw [if_neg hpow]
      cases hins : bc.insert block with
      | mk r bc2 =>
        have hpw : newBlocksPoW bc bc2 := by
          have := insert_newBlocksPoW bc block (by omega)
          rw [hins] at this
          exact this
        cases r with
        | ok u =>
          exact newBlocksPoW_trans hpw
            (processCollected_newBlocksPoW curFinal rest bc2 _ _ _)
        | error e =>
          have hbc2 : bc2 = bc := by
            cases hp : bc.states.find? block.get_parent with
            | none =>
              have := insert_err_eq bc block hp
              rw [hins] at this
              exact congrArg Prod.snd this
            | some ps =>
              have := insert_ok_eq bc block ps hp
              rw [hins] at this
              exact absurd (congrArg Prod.fst this) (by simp)
          rw [hbc2]
          exact processCollected_newBlocksPoW curFinal rest bc _ _ _

theorem processCollected_contains_mono (curFinal : Nat) :
    ∀ (l : List Block) (bc : Blockchain) (mp : Mempool)
      (buf : Map (List Block)) (msgs : List Message) (h : Nat),
      bc.blocks.contains h = true →
      (processCollected curFinal bc mp buf msgs l).1.blocks.contains h = true
  | [], bc, mp, buf, msgs, h, hc => hc
  | block :: rest, bc, mp, buf, msgs, h, hc => by
    simp only [processCollected]
    by_cases hpow : block.hash > block.header.difficulty
    · rw [if_pos hpow]
      exact processCollected_contains_mono curFinal rest bc mp buf msgs h hc
    · rw [if_neg hpow]
      cases hins : bc.insert block with
      | mk r bc2 =>
        have hc2 : bc2.blocks.contains h = true := by
          have := insert_contains_mono bc block h hc
          rw [hins] at this
          exact this
        cases r with
        | ok u =>
          exact processCollected_contains_mono curFinal rest bc2 _ _ _ h hc2
        | error e =>
          exact processCollected_contains_mono curFinal rest bc2 _ _ _ h hc2

theorem processOrphans_newBlocksPoW (ws : WorkerState) (ph : Nat) :
    newBlocksPoW ws.blockchain (processOrphans ws ph).1.blockchain := by
  unfold processOrphans
  exact processCollected_newBlocksPoW _ _ _ _ _ _

theorem processOrphans_contains_mono (ws : WorkerState) (ph : Nat) (h : Nat)
    (hc : ws.blockchain.blocks.contains h = true) :
    (processOrphans ws ph).1.blockchain.blocks.contains h = true := by
  unfold processOrphans
  exact processCollected_contains_mono _ _ _ _ _ _ h hc

/-- A failed `insert` returns the blockchain unchanged. -/
theorem insert_error_eq_self (bc : Blockchain) (b : Block) (e : BlockchainError)
    (bc2 : Blockchain) (h : bc.insert b = (Except.error e, bc2)) :
    bc2 = bc := by
  cases hp : bc.states.find? b.get_parent with
  | none =>
    have h2 := insert_err_eq bc b hp
    rw [h] at h2
    exact congrArg Prod.snd h2
  | some ps =>
    have h2 := insert_ok_eq bc b ps hp
    rw [h] at h2
    exact absurd (congrArg Prod.fst h2) (by simp)

/-- Through one block ingestion, every block of the resulting blockchain was
already present or satisfies the PoW bound. -/
theorem handleBlock_newBlocksPoW (ws : WorkerState) (b : Block) :
    newBlocksPoW ws.blockchain (handleBlock ws b).state.blockchain := by
  unfold handleBlock
  cases h1 : ws.blockchain.blocks.contains b.hash with
  | true =>
    simp only [h1, if_true]
    exact newBlocksPoW_refl _
  | false =>
    cases h2 : ws.blockchain.blocks.contains b.get_parent with
    | false =>
      simp [h1, h2]
      exact newBlocksPoW_refl _
    | true =>
      by_cases h3 : b.hash > b.header.difficulty
      · simp [h1, h2, h3]
        exact newBlocksPoW_refl _
      · cases hst : ws.blockchain.states.find? b.get_parent with
        | none =>
          simp [h1, h2, h3, hst]
          exact newBlocksPoW_refl _
        | some ps =>
          cases hall : b.content.data.all (fun tx => tx.verify ps) with
          | false =>
            simp [h1, h2, h3, hst, hall]
            exact newBlocksPoW_refl _
          | true =>
            simp only [h1, h2, h3, hst, hall]
            cases hins : ws.blockchain.insert b with
            | mk r bc2 =>
              have hpw : newBlocksPoW ws.blockchain bc2 := by
                have hp := insert_newBlocksPoW ws.blockchain b (by omega)
                rw [hins] at hp
                exact hp
              cases r with
              | ok u =>
                simp
                exact newBlocksPoW_trans hpw
                  (processOrphans_newBlocksPoW ⟨bc2, _, _⟩ b.hash)
              | error e =>
                simp
                have hbc : bc2 = ws.blockchain :=
                  insert_error_eq_self ws.blockchain b e bc2 hins
                rw [hbc]
                exact newBlocksPoW_refl _

/-! ### Claim C2 — the PoW bound on stored blocks -/

/-- C2 counterexample: `Blockchain::insert` performs no proof-of-work check,
so a blockchain reachable by insert operations stores `blkPoWFail`, whose
hash exceeds its declared difficulty. -/
theorem C2_counterexample :
    Reachable (Blockchain.new.insert blkPoWFail).2 ∧
    (Blockchain.new.insert blkPoWFail).2.blocks.find? blkPoWFail.hash =
      some blkPoWFail ∧
    blkPoWFail.hash > blkPoWFail.header.difficulty :=
  ⟨Reachable.step Blockchain.new blkPoWFail Reachable.base, rfl, by decide⟩

/-- C2 (amended): the PoW invariant is enforced by the network worker, not
by `Blockchain::insert`: every block that the worker's block-ingestion step
(including orphan reconciliation) adds to the blockchain satisfies
`block.hash() ≤ block.header.difficulty`, while `insert` itself accepts
PoW-violating blocks. -/
theorem C2_theorem (ws : WorkerState) (b : Block) (h : Nat) (blk : Block)
    (hnew : (handleBlock ws b).state.blockchain.blocks.find? h = some blk)
    (hold : ws.blockchain.blocks.find? h = none) :
    blk.hash ≤ blk.header.difficulty := by
  cases handleBlock_newBlocksPoW ws b h blk hnew with
  | inl hin => rw [hold] at hin; exact Option.noConfusion hin
  | inr hpow => exact hpow

/-- C2 witness: the theorem at the fresh worker and the concrete block
`blkDiff`, which the worker inserts. -/
theorem C2_witness : blkDiff.hash ≤ blkDiff.header.difficulty :=
  C2_theorem ws0 blkDiff blkDiff.hash blkDiff (by rfl) (by rfl)

/-! ### Claim C5 — difficulty continuity -/

/-- C5 counterexample: the fresh worker knows `blkDiff`'s parent (genesis),
`blkDiff` declares a difficulty different from its parent's, and the worker
still inserts it — there is no difficulty-continuity check. -/
theorem C5_counterexample :
    ws0.blockchain.blocks.find? blkDiff.get_parent = some genesisBlock ∧
    blkDiff.header.difficulty ≠ genesisBlock.header.difficulty ∧
    (handleBlock ws0 blkDiff).state.blockchain.blocks.find? blkDiff.hash =
      some blkDiff :=
  ⟨rfl, by decide, by rfl⟩

/-- C5 (amended): the worker applies no difficulty-continuity check: an
unknown block with a known parent that passes the PoW check against its own
declared difficulty and whose transactions verify against the parent state
is inserted, regardless of whether its difficulty equals the parent's. -/
theorem C5_theorem (ws : WorkerState) (b : Block) (ps : State)
    (hknown : ws.blockchain.blocks.contains b.hash = false)
    (hpar : ws.blockchain.blocks.contains b.get_parent = true)
    (hpow : ¬ (b.hash > b.header.difficulty))
    (hstate : ws.blockchain.states.find? b.get_parent = some ps)
    (htxs : b.content.data.all (fun tx => tx.verify ps) = true) :
    (handleBlock ws b).state.blockchain.blocks.contains b.hash = true := by
  unfold handleBlock
  simp only [hknown, hpar, hstate, htxs]
  cases hins : ws.blockchain.insert b with
  | mk r bc2 =>
    have h2 := insert_ok_eq ws.blockchain b ps hstate
    rw [hins] at h2
    cases r with
    | ok u =>
      simp [hpow]
      have hbc2 := congrArg Prod.snd h2
      simp only at hbc2
      apply processOrphans_contains_mono
      rw [hbc2]
      unfold Map.contains
      rw [Map.find?_insert, if_pos rfl]
      rfl
    | error e =>
      exact absurd (congrArg Prod.fst h2) (by simp)

/-- C5 witness: the amended theorem at the fresh worker and `blkDiff`. -/
theorem C5_witness :
    (handleBlock ws0 blkDiff).state.blockchain.blocks.contains blkDiff.hash
      = true :=
  C5_theorem ws0 blkDiff genesisState (by rfl) (by rfl) (by decide)
    (by rfl) (by rfl)

/-! ### Claim C3 — genesis / ICO allocation -/

/-- C3 counterexample: the genesis state holds exactly one account — the one
derived from the fixed seed `[42u8; 32]` — with balance 1,000,000, not three
accounts of balance 10,000,000 derived from the seeds `[1u8;32]`, `[2u8;32]`,
`[3u8;32]`; and `Blockchain::new` takes no port argument. -/
theorem C3_counterexample :
    Blockchain.new.states.find? genesisHash = some genesisState ∧
    genesisState.accounts = [(icoAddress, ⟨0, 1000000⟩)] ∧
    genesisState.accounts.length = 1 :=
  ⟨rfl, rfl, rfl⟩

/-- C3 (amended): the genesis state produced by `Blockchain::new` contains
exactly one ICO account, derived from the fixed seed `[42u8; 32]`, with
balance 1,000,000 and nonce 0; `Blockchain::new` takes no p2p port and the
allocation does not depend on one. -/
theorem C3_theorem :
    Blockchain.new.states.find? genesisHash =
      some (State.new.create_account (addrOfPk (pkOfSeed 42)) 1000000) ∧
    (State.new.create_account (addrOfPk (pkOfSeed 42)) 1000000).accounts =
      [(addrOfPk (pkOfSeed 42), ⟨0, 1000000⟩)] :=
  ⟨rfl, rfl⟩

/-! ### Claim C4 — mempool insert -/

/-- C4 counterexample: `txU` is absent from the fresh mempool, yet
`Mempool::insert` returns `false` and does not store it, because the insert
validates against the tip state (where `txU`'s sender is unknown) —
contradicting the claim that a non-duplicate is always stored with no
account-state validation. -/
theorem C4_counterexample :
    Mempool.new.transactions.find? (txHash txU) = none ∧
    (Mempool.new.insert Blockchain.new txU).1 = false ∧
    (Mempool.new.insert Blockchain.new txU).2.transactions.find?
      (txHash txU) = none :=
  ⟨rfl, rfl, rfl⟩

/-- C4 (amended): `Mempool::insert` returns `false` when the transaction's
hash is already present; otherwise it validates the transaction with
`SignedTransaction::verify` against the tip state of the shared blockchain
and stores it exactly when validation succeeds, returning whether it was
stored. -/
theorem C4_theorem (m : Mempool) (bc : Blockchain)
    (tx : SignedTransaction) (st : State)
    (htip : bc.states.find? bc.tip = some st) :
    (m.transactions.contains (txHash tx) = true →
      m.insert bc tx = (false, m)) ∧
    (m.transactions.contains (txHash tx) = false →
      tx.verify st = true →
      m.insert bc tx =
        (true, ⟨m.transactions.insert (txHash tx) tx, m.max_block_size⟩)) ∧
    (m.transactions.contains (txHash tx) = false →
      tx.verify st = false →
      m.insert bc tx = (false, m)) := by
  unfold Mempool.insert
  refine ⟨fun hdup => by simp [hdup], fun hdup hv => ?_, fun hdup hv => ?_⟩
  · simp [hdup, htip, hv]
  · simp [hdup, htip, hv]

/-- C4 witness: the amended theorem at the fresh mempool, fresh blockchain
and the stateful-invalid transaction `txU`. -/
theorem C4_witness :
    (Mempool.new.transactions.contains (txHash txU) = false →
      txU.verify genesisState = false →
      Mempool.new.insert Blockchain.new txU = (false, Mempool.new)) ∧
    Mempool.new.insert Blockchain.new txU = (false, Mempool.new) := by
  have h := C4_theorem Mempool.new Blockchain.new txU genesisState rfl
  exact ⟨h.2.2, h.2.2 rfl rfl⟩

/-! ### Merkle-tree correctness lemmas -/

theorem getD_cons_two {α : Type} (a b : α) (l : List α) (n : Nat) (d : α) :
    (a :: b :: l).getD (n + 2) d = l.getD n d := rfl

theorem getD_map_lt (f : Nat → Nat) :
    ∀ (l : List Nat) (i : Nat), i < l.length →
      (l.map f).getD i 0 = f (l.getD i 0)
  | a :: t, 0, _ => rfl
  | a :: t, i + 1, h => by
    have ih := getD_map_lt f t i (by simp only [List.length_cons] at h; omega)
    simpa using ih

theorem getD_append_last :
    ∀ (l : List Nat) (x : Nat), (l ++ [x]).getD l.length 0 = x
  | [], x => rfl
  | a :: t, x => by
    have ih := getD_append_last t x
    simp only [List.cons_append, List.length_cons, List.getD_cons_succ]
    exact ih

theorem getLastD_eq_getD :
    ∀ (l : List Nat), l ≠ [] → l.getLastD 0 = l.getD (l.length - 1) 0
  | [], h => absurd rfl h
  | [a], _ => rfl
  | a :: b :: t, _ => by
    have ih := getLastD_eq_getD (b :: t) (by simp)
    have h0 : (a :: b :: t).getLastD 0 = (b :: t).getLastD 0 := rfl
    have e : (a :: b :: t).length - 1 = t.length + 1 := by simp
    rw [h0, ih, e]
    have e2 : (b :: t).length - 1 = t.length := by simp
    rw [e2]
    rfl

theorem getLastD_cons_of_ne_nil {α : Type} (a : α) (l : List α) (d : α)
    (h : l ≠ []) : (a :: l).getLastD d = l.getLastD d := by
  cases l with
  | nil => exact absurd rfl h
  | cons b t => rfl

theorem pairUp_getD :
    ∀ (p : List Nat) (j : Nat), 2 * j + 1 < p.length →
      (pairUp p).getD j 0 =
        hashConcat (p.getD (2 * j) 0) (p.getD (2 * j + 1) 0)
  | [], j, h => by simp at h
  | [a], j, h => by simp at h
  | a :: b :: rest, 0, _ => rfl
  | a :: b :: rest, j + 1, h => by
    have hlen : 2 * j + 1 < rest.length := by
      simp only [List.length_cons] at h
      omega
    have e1 : 2 * (j + 1) = 2 * j + 2 := by omega
    rw [e1]
    have e2 : 2 * j + 2 + 1 = 2 * j + 1 + 2 := by omega
    rw [e2, getD_cons_two, getD_cons_two]
    have hp : pairUp (a :: b :: rest) = hashConcat a b :: pairUp rest := rfl
    rw [hp, List.getD_cons_succ]
    exact pairUp_getD rest j hlen

theorem pad_getD_lt (l : List Nat) (i : Nat) (h : i < l.length) :
    (pad l).getD i 0 = l.getD i 0 := by
  unfold pad
  split
  · exact List.getD_append l [l.getLastD 0] 0 i h
  · rfl

/-- The duplicated slot of an odd level holds a copy of its last entry. -/
theorem pad_getD_dup (l : List Nat) (h : l.length % 2 ≠ 0) :
    (pad l).getD l.length 0 = l.getD (l.length - 1) 0 := by
  unfold pad
  rw [if_pos h, getD_append_last]
  exact getLastD_eq_getD l (by intro he; rw [he] at h; simp at h)

/-- The per-level folding step of `verify` recomputes exactly the parent
entry of the next level. -/
theorem step_getD (l : List Nat) (idx : Nat) (hidx : idx < l.length) :
    (if idx % 2 = 0 then
       hashConcat (l.getD idx 0)
         (if idx + 1 < l.length then l.getD (idx + 1) 0 else l.getD idx 0)
     else hashConcat (l.getD (idx - 1) 0) (l.getD idx 0)) =
    (nextLevel l).getD (idx / 2) 0 := by
  have hpadlen : (pad l).length = l.length + l.length % 2 := pad_length l
  have hj : 2 * (idx / 2) + 1 < (pad l).length := by omega
  rw [nextLevel, pairUp_getD (pad l) (idx / 2) hj]
  by_cases he : idx % 2 = 0
  · rw [if_pos he]
    have h2 : 2 * (idx / 2) = idx := by omega
    rw [h2]
    by_cases hs : idx + 1 < l.length
    · rw [if_pos hs, pad_getD_lt l idx hidx, pad_getD_lt l (idx + 1) hs]
    · have hlen : idx + 1 = l.length := by omega
      have hodd : l.length % 2 ≠ 0 := by omega
      rw [if_neg hs, pad_getD_lt l idx hidx, hlen, pad_getD_dup l hodd]
      have e : l.length - 1 = idx := by omega
      rw [e]
  · rw [if_neg he]
    have h2 : 2 * (idx / 2) = idx - 1 := by omega
    have h3 : 2 * (idx / 2) + 1 = idx := by omega
    rw [h3, h2, pad_getD_lt l idx hidx, pad_getD_lt l (idx - 1) (by omega)]

theorem buildLevels_ne_nil (cur : List Nat) : buildLevels cur ≠ [] := by
  by_cases h : 1 < cur.length
  · rw [buildLevels_unfold cur h]
    simp
  · rw [buildLevels_last cur (by omega)]
    simp

theorem buildLevels_head (cur : List Nat) :
    (buildLevels cur).headD [] = cur := by
  by_cases h : 1 < cur.length
  · rw [buildLevels_unfold cur h]
    rfl
  · rw [buildLevels_last cur (by omega)]
    rfl

/-- Folding the proof collected by `proofAux` from any in-range leaf
position recomputes the root entry of the level tower. -/
theorem verifyFold_levels (cur : List Nat) (idx : Nat)
    (hidx : idx < cur.length) :
    verifyFold (cur.getD idx 0) idx
      (proofAux (buildLevels cur).dropLast idx) =
    ((buildLevels cur).getLastD []).headD 0 := by
  by_cases hlen : 1 < cur.length
  · have hnext_len : idx / 2 < (nextLevel cur).length := by
      rw [nextLevel_length]
      omega
    have ih := verifyFold_levels (nextLevel cur) (idx / 2) hnext_len
    rw [buildLevels_unfold cur hlen,
      List.dropLast_cons_of_ne_nil (buildLevels_ne_nil _),
      getLastD_cons_of_ne_nil _ _ _ (buildLevels_ne_nil _)]
    have hstep := step_getD cur idx hidx
    by_cases he : idx % 2 = 0
    · rw [if_pos he] at hstep
      simp only [proofAux, verifyFold, if_pos he]
      rw [hstep]
      exact ih
    · rw [if_neg he] at hstep
      simp only [proofAux, verifyFold, if_neg he]
      rw [hstep]
      exact ih
  · have h1 : cur.length = 1 := by omega
    have hidx0 : idx = 0 := by omega
    subst hidx0
    obtain ⟨a, ha⟩ := List.length_eq_one.mp h1
    subst ha
    rfl
termination_by cur.length
decreasing_by
  rw [nextLevel_length]
  omega

/-! ### Claim C8 — Merkle proof verification -/

/-- C8: for every non-empty input and in-range index, `verify` accepts the
proof produced for that index against the tree's root; and any index at or
beyond the leaf count is rejected outright. -/
theorem C8_theorem (data : List Nat) (i : Nat) (hne : data ≠ [])
    (hi : i < data.length) :
    verify (MerkleTree.new data).root (hashLeaf (data.getD i 0))
      ((MerkleTree.new data).proof i) i data.length = true ∧
    ∀ (r d : Nat) (p : List Nat) (j n : Nat), n ≤ j →
      verify r d p j n = false := by
  constructor
  · have hleaves_len : (data.map hashLeaf).length = data.length := by simp
    have hnonempty : (data.map hashLeaf).isEmpty = false := by
      cases data with
      | nil => exact absurd rfl hne
      | cons a t => rfl
    have hnew : MerkleTree.new data = ⟨buildLevels (data.map hashLeaf)⟩ := by
      unfold MerkleTree.new
      simp [hnonempty]
    rw [hnew]
    have hempty : (buildLevels (data.map hashLeaf)).isEmpty = false := by
      cases hb : buildLevels (data.map hashLeaf) with
      | nil => exact absurd hb (buildLevels_ne_nil _)
      | cons x xs => rfl
    have hheadlen :
        ((buildLevels (data.map hashLeaf)).headD []).length = data.length := by
      rw [buildLevels_head]
      exact hleaves_len
    have hproof : MerkleTree.proof ⟨buildLevels (data.map hashLeaf)⟩ i =
        proofAux (buildLevels (data.map hashLeaf)).dropLast i := by
      unfold MerkleTree.proof
      rw [if_neg]
      simp only [hempty, hheadlen]
      simp [Nat.not_le.mpr hi]
    rw [hproof]
    unfold verify
    rw [if_neg (Nat.not_le.mpr hi)]
    have hdatum : hashLeaf (data.getD i 0) = (data.map hashLeaf).getD i 0 :=
      (getD_map_lt hashLeaf data i hi).symm
    rw [hdatum,
      verifyFold_levels (data.map hashLeaf) i (by rw [hleaves_len]; exact hi)]
    exact beq_self_eq_true _
  · intro r d p j n hnj
    unfold verify
    rw [if_pos hnj]

/-- C8 witness: the theorem at the concrete three-leaf input `[5, 9, 13]`
and index 2 (the odd, duplicated-sibling position), plus the out-of-range
rejection at index 5 of a 3-leaf tree. -/
theorem C8_witness :
    verify (MerkleTree.new [5, 9, 13]).root
      (hashLeaf (([5, 9, 13] : List Nat).getD 2 0))
      ((MerkleTree.new [5, 9, 13]).proof 2) 2 3 = true ∧
    verify (MerkleTree.new [5, 9, 13]).root 0 [] 5 3 = false := by
  have h := C8_theorem [5, 9, 13] 2 (by decide) (by decide)
  exact ⟨h.1, h.2 (MerkleTree.new [5, 9, 13]).root 0 [] 5 3 (by decide)⟩

/-! ### Claim C9 — transaction error precedence -/

/-- C9 counterexample: `txU`'s signature does not verify and its sender has
no account; `process_transaction` reports the missing sender, not
`InvalidSignature`, so the account-existence check precedes the signature
check. -/
theorem C9_counterexample :
    sigValid txU = false ∧
    State.new.process_transaction txU =
      (Except.error "Sender account not found", State.new) ∧
    "Sender account not found" ≠ "Invalid signature" :=
  ⟨rfl, rfl, by decide⟩

/-- C9 (amended): `process_transaction` checks sender-account existence
first: if the derived sender has no account the error is the
unknown-sender error regardless of the signature; only when the account
exists and `SignedTransaction::verify` fails (signature, nonce continuity or
balance) is the invalid-signature error reported. -/
theorem C9_theorem (s : State) (tx : SignedTransaction) :
    (s.get_account_state (addrOfPk tx.public_key) = none →
      s.process_transaction tx =
        (Except.error "Sender account not found", s)) ∧
    (∀ acct, s.get_account_state (addrOfPk tx.public_key) = some acct →
      tx.verify s = false →
      s.process_transaction tx = (Except.error "Invalid signature", s)) := by
  constructor
  · intro hnone
    simp only [State.process_transaction, hnone]
  · intro acct hsome hv
    simp only [State.process_transaction, hsome, hv]
    rfl

/-- C9 witness: the amended theorem at the empty state and the
bad-signature, unknown-sender transaction `txU`. -/
theorem C9_witness :
    State.new.process_transaction txU =
      (Except.error "Sender account not found", State.new) :=
  (C9_theorem State.new txU).1 rfl

/-! ### Claim C10 — failed transactions leave the state unchanged -/

/-- C10: whenever `process_transaction` returns an error, the state is
returned unchanged — every mutation happens only after all checks passed. -/
theorem C10_theorem (s : State) (tx : SignedTransaction) (e : String)
    (herr : (s.process_transaction tx).1 = Except.error e) :
    (s.process_transaction tx).2 = s := by
  cases hs : s.get_account_state (addrOfPk tx.public_key) with
  | none => simp [State.process_transaction, hs]
  | some acct =>
    cases hv : tx.verify s with
    | false => simp [State.process_transaction, hs, hv]
    | true => simp [State.process_transaction, hs, hv] at herr

/-- C10 witness: the theorem at the empty state and the failing transaction
`txU`. -/
theorem C10_witness : (State.new.process_transaction txU).2 = State.new :=
  C10_theorem State.new txU "Sender account not found" rfl

end Node
